import Mathlib

/-!
Shallow embedding of the NPC attribute-resolution engine of rpg-tools
(src/campman/src/gen_npc_tab/npc_builder/mod.rs and dependency_graph.rs).

Rust HashMap values are modelled as association lists; a lookup that the
Rust code performs with the panicking index operator is modelled as an
Option-valued lookup whose none case marks the panicking branch.  Functions
that can reach such a branch return Option, with none meaning the process
would abort.
-/

/-- Model of ChoiceFilter from mod.rs: either no filter, or a condition on
the committed value of another field. -/
inductive ChoiceFilter : Type where
  | FieldValue (target_field : String) (target_value : String) : ChoiceFilter
  | None : ChoiceFilter
deriving DecidableEq, Repr

/-- Model of ChoiceSource from mod.rs: a pool of options plus a filter. -/
structure ChoiceSource : Type where
  options : List String
  filter : ChoiceFilter
deriving DecidableEq, Repr

/-- Model of FieldBlueprint from mod.rs. -/
structure FieldBlueprint : Type where
  n_selections : Nat
  sources : List ChoiceSource
deriving DecidableEq, Repr

/-- Model of StringMap = HashMap of String to Vec of String, as an
association list. -/
abbrev StringMap : Type := List (String × List String)

/-- Model of BpMap = HashMap of String to FieldBlueprint. -/
abbrev BpMap : Type := List (String × FieldBlueprint)

/-- Association-list lookup, modelling HashMap get / index. -/
def mapLookup {β : Type} (k : String) : List (String × β) → Option β
  | [] => none
  | (k2, v) :: rest => if k2 = k then some v else mapLookup k rest

/-- Model of HashMap contains_key. -/
def containsKey {β : Type} (m : List (String × β)) (k : String) : Bool :=
  (mapLookup k m).isSome

/-- Model of HashMap insert: replace the entry if the key is present,
append otherwise. -/
def mapInsert (m : StringMap) (k : String) (v : List String) : StringMap :=
  match m with
  | [] => [(k, v)]
  | (k2, v2) :: rest =>
    if k2 = k then (k, v) :: rest else (k2, v2) :: mapInsert rest k v

/-- Model of DependencyGraph from dependency_graph.rs: root fields plus the
left-depends-on-right edge relation of the ManyToMany store. -/
structure DependencyGraph : Type where
  roots : List String
  dependencies : List (String × String)
deriving DecidableEq, Repr

/-- The filter targets of the sources of one blueprint: the field_deps
collection computed inside from_blueprints. -/
def fieldDeps (bp : FieldBlueprint) : List String :=
  bp.sources.filterMap fun cs =>
    match cs.filter with
    | ChoiceFilter.None => none
    | ChoiceFilter.FieldValue tf _ => some tf

/-- The loop body of from_blueprints: accumulate roots and dependency
edges over the blueprint entries. -/
def buildGraph : BpMap → List String × List (String × String)
  | [] => ([], [])
  | (name, bp) :: rest =>
    let acc := buildGraph rest
    let fd := fieldDeps bp
    if fd.length = 0 then (name :: acc.1, acc.2)
    else (acc.1, fd.map (fun d => (name, d)) ++ acc.2)

/-- Model of DependencyGraph::from_blueprints, including the ensure that
fails when no field is a root. -/
def from_blueprints (bps : BpMap) : Except String DependencyGraph :=
  let rd := buildGraph bps
  if rd.1.length > 0 then Except.ok ⟨rd.1, rd.2⟩
  else Except.error
    "There are no fields that do not depend on other fields. This will not work"

/-- Model of ManyToMany get_left: all right ends of edges whose left end
is the given field (get_left returns an Option, unwrap_or gives []). -/
def getLeft (g : DependencyGraph) (f : String) : List String :=
  (g.dependencies.filter fun e => e.1 = f).map Prod.snd

/-- Model of ManyToMany get_left_keys: the distinct left ends. -/
def getLeftKeys (g : DependencyGraph) : List String :=
  (g.dependencies.map Prod.fst).dedup

/-- Model of DependencyGraph::get_determined_fields. -/
def get_determined_fields (g : DependencyGraph) (npc : StringMap) : List String :=
  (getLeftKeys g).filter fun f => (getLeft g f).all fun d => containsKey npc d

/-- Model of DependencyGraph::get_available_unset_fields. -/
def get_available_unset_fields (g : DependencyGraph) (npc : StringMap) : List String :=
  (g.roots ++ get_determined_fields g npc).filter fun f => !containsKey npc f

/-- Model of NpcBlueprint from mod.rs. -/
structure NpcBlueprint : Type where
  blueprints : BpMap
  dependency_graph : DependencyGraph
deriving DecidableEq, Repr

/-- Model of NpcBuilder from mod.rs. -/
structure NpcBuilder : Type where
  constructed_npc : StringMap
  blueprint : NpcBlueprint
deriving DecidableEq, Repr

/-- One arm of the filter_map inside current_field_infos, evaluated on one
source.  none models the panicking index into constructed_npc when the
target field is absent; some none means the source is inactive; some
(some opts) means the source contributes opts. -/
def evalSource (npc : StringMap) (src : ChoiceSource) : Option (Option (List String)) :=
  match src.filter with
  | ChoiceFilter.FieldValue tf tv =>
    match mapLookup tf npc with
    | none => none
    | some vals => if vals.contains tv then some (some src.options) else some none
  | ChoiceFilter.None => some (some src.options)

/-- The filter_map plus flatten plus collect inside current_field_infos:
concatenate the contributions of the active sources, propagating the
panicking branch. -/
def computeOpts (npc : StringMap) : List ChoiceSource → Option (List String)
  | [] => some []
  | src :: rest =>
    match evalSource npc src with
    | none => none
    | some contrib =>
      match computeOpts npc rest with
      | none => none
      | some opts => some (contrib.getD [] ++ opts)

/-- Model of NpcBuilder::current_field_infos.  The outer Option marks the
panicking branches (the blueprint index and the filter evaluation); the
inner Option is the return value of the Rust function, none meaning the
NPC is complete. -/
def current_field_infos (b : NpcBuilder) : Option (Option (String × List String × Nat)) :=
  let fields := get_available_unset_fields b.blueprint.dependency_graph b.constructed_npc
  match fields with
  | [] => some none
  | field :: _ =>
    match mapLookup field b.blueprint.blueprints with
    | none => none
    | some bp =>
      match computeOpts b.constructed_npc bp.sources with
      | none => none
      | some opts => some (some (field, opts, bp.n_selections))

/-- Model of NpcBuilder::npc_completed. -/
def npc_completed (b : NpcBuilder) : Bool :=
  (b.blueprint.blueprints.map Prod.fst).all fun k => containsKey b.constructed_npc k

/-- Model of SetFieldError from mod.rs. -/
inductive SetFieldError : Type where
  | WrongN (got : Nat) (expected : Nat) : SetFieldError
  | InvalidValue (value : String) (valid : List String) : SetFieldError
  | NPCCompleteError : SetFieldError
deriving DecidableEq, Repr

/-- Model of NpcBuilder::set_current_field_val.  The outer Option marks
the panicking branches (inside current_field_infos, and the unwrap on the
first invalid value); the payload is the Rust result paired with the
builder after the call (the builder mutates itself in place). -/
def set_current_field_val (b : NpcBuilder) (values : List String) :
    Option (Except SetFieldError (Option StringMap) × NpcBuilder) :=
  match current_field_infos b with
  | none => none
  | some none => some (Except.error SetFieldError.NPCCompleteError, b)
  | some (some (field, opts, n)) =>
    if values.length ≠ n then
      some (Except.error (SetFieldError.WrongN values.length n), b)
    else if values.all (fun v => opts.contains v) then
      let b2 : NpcBuilder :=
        { b with constructed_npc := mapInsert b.constructed_npc field values }
      if npc_completed b2 then some (Except.ok (some b2.constructed_npc), b2)
      else some (Except.ok none, b2)
    else
      match values.filter (fun v => !opts.contains v) with
      | [] => none
      | bad :: _ => some (Except.error (SetFieldError.InvalidValue bad opts), b)


/-- Builders reachable from a fresh session (empty constructed_npc) for a
fixed blueprint by successful set_current_field_val steps, as produced by
NpcBuilder::new followed by calls that return Ok. -/
inductive Reachable (bp : NpcBlueprint) : NpcBuilder → Prop where
  | init : Reachable bp ⟨[], bp⟩
  | step (b b2 : NpcBuilder) (values : List String) (res : Option StringMap)
      (hr : Reachable bp b)
      (hs : set_current_field_val b values = some (Except.ok res, b2)) :
      Reachable bp b2

/-- Concrete blueprint of the end-to-end scenario: a Race field with an
unconditional source. -/
def raceBp : FieldBlueprint := ⟨1, [⟨["Elf", "Orc"], ChoiceFilter.None⟩]⟩

/-- Concrete Weapon field with two sources filtered on Race. -/
def weaponBp : FieldBlueprint :=
  ⟨1, [⟨["Axe"], ChoiceFilter.FieldValue "Race" "Orc"⟩,
       ⟨["Bow"], ChoiceFilter.FieldValue "Race" "Elf"⟩]⟩

/-- Concrete blueprint map with Race and Weapon. -/
def exBps : BpMap := [("Race", raceBp), ("Weapon", weaponBp)]

/-- The dependency graph that from_blueprints builds for exBps. -/
def exG : DependencyGraph := ⟨["Race"], [("Weapon", "Race"), ("Weapon", "Race")]⟩

/-- Builder over exBps with Race already resolved to Orc. -/
def exBuilder : NpcBuilder := ⟨[("Race", ["Orc"])], ⟨exBps, exG⟩⟩

/-- Fresh builder over exBps. -/
def exBuilder0 : NpcBuilder := ⟨[], ⟨exBps, exG⟩⟩

/-- Blueprint map with a root R and two mutually filtered fields A and B. -/
def cycBps : BpMap :=
  [("R", ⟨1, [⟨["r"], ChoiceFilter.None⟩]⟩),
   ("A", ⟨1, [⟨["a"], ChoiceFilter.FieldValue "B" "b"⟩]⟩),
   ("B", ⟨1, [⟨["b"], ChoiceFilter.FieldValue "A" "a"⟩]⟩)]

/-- The dependency graph that from_blueprints builds for cycBps. -/
def cycG : DependencyGraph := ⟨["R"], [("A", "B"), ("B", "A")]⟩

/-- Builder over cycBps with only R resolved: A and B are stalled. -/
def cycBuilder : NpcBuilder := ⟨[("R", ["r"])], ⟨cycBps, cycG⟩⟩

/-- Blueprint map with one field that requires two selections. -/
def dupBps : BpMap := [("F", ⟨2, [⟨["x", "y"], ChoiceFilter.None⟩]⟩)]

/-- The dependency graph that from_blueprints builds for dupBps. -/
def dupG : DependencyGraph := ⟨["F"], []⟩

/-- Fresh builder over dupBps. -/
def dupBuilder : NpcBuilder := ⟨[], ⟨dupBps, dupG⟩⟩

/-- Blueprint map with a single one-selection field. -/
def oneBps : BpMap := [("F1", ⟨1, [⟨["x"], ChoiceFilter.None⟩]⟩)]

/-- The dependency graph that from_blueprints builds for oneBps. -/
def oneG : DependencyGraph := ⟨["F1"], []⟩

/-- The parsed blueprint pairing oneBps with its graph. -/
def oneBlueprint : NpcBlueprint := ⟨oneBps, oneG⟩

/-- Fresh builder over oneBps. -/
def oneBuilder : NpcBuilder := ⟨[], oneBlueprint⟩

/-! Helper lemmas about the association-list map model. -/

theorem mapLookup_isSome_iff {β : Type} (m : List (String × β)) (k : String) :
    (mapLookup k m).isSome = true ↔ ∃ v, (k, v) ∈ m := by
  induction m with
  | nil => simp [mapLookup]
  | cons p rest ih =>
    obtain ⟨k2, v2⟩ := p
    by_cases h : k2 = k
    · subst h
      simp [mapLookup]
    · simp only [mapLookup, if_neg h, ih]
      constructor
      · rintro ⟨v, hv⟩
        exact ⟨v, List.mem_cons_of_mem _ hv⟩
      · rintro ⟨v, hv⟩
        rcases List.mem_cons.mp hv with heq | hmem
        · exact absurd (congrArg Prod.fst heq).symm h
        · exact ⟨v, hmem⟩

theorem containsKey_iff {β : Type} (m : List (String × β)) (k : String) :
    containsKey m k = true ↔ ∃ v, (k, v) ∈ m := by
  unfold containsKey
  exact mapLookup_isSome_iff m k

theorem containsKey_iff_mem_keys {β : Type} (m : List (String × β)) (k : String) :
    containsKey m k = true ↔ k ∈ m.map Prod.fst := by
  rw [containsKey_iff]
  simp only [List.mem_map]
  constructor
  · rintro ⟨v, hv⟩
    exact ⟨(k, v), hv, rfl⟩
  · rintro ⟨⟨k2, v⟩, hmem, hk⟩
    cases hk
    exact ⟨v, hmem⟩

theorem mapInsert_fresh (m : StringMap) (k : String) (v : List String)
    (h : containsKey m k = false) : mapInsert m k v = m ++ [(k, v)] := by
  induction m with
  | nil => rfl
  | cons p rest ih =>
    obtain ⟨k2, v2⟩ := p
    by_cases hk : k2 = k
    · subst hk
      simp [containsKey, mapLookup] at h
    · simp only [containsKey, mapLookup, if_neg hk] at h
      simp only [mapInsert, if_neg hk, List.cons_append, List.cons.injEq, true_and]
      exact ih h

theorem mapLookup_append_fresh {β : Type} (m : List (String × β)) (k k2 : String)
    (v : β) :
    mapLookup k2 (m ++ [(k, v)]) =
      (mapLookup k2 m).orElse (fun _ => if k = k2 then some v else none) := by
  induction m with
  | nil => simp [mapLookup]
  | cons p rest ih =>
    obtain ⟨k3, v3⟩ := p
    by_cases hk : k3 = k2
    · simp [mapLookup, hk]
    · simpa [mapLookup, hk] using ih

/-! Helper lemmas about the dependency graph construction. -/

theorem fieldDeps_eq_nil_iff (bp : FieldBlueprint) :
    fieldDeps bp = [] ↔ ∀ src ∈ bp.sources, src.filter = ChoiceFilter.None := by
  unfold fieldDeps
  rw [List.filterMap_eq_nil_iff]
  constructor
  · intro h src hsrc
    have := h src hsrc
    cases hf : src.filter with
    | FieldValue tf tv => rw [hf] at this; simp at this
    | None => rfl
  · intro h src hsrc
    rw [h src hsrc]

theorem mem_fieldDeps_iff (bp : FieldBlueprint) (d : String) :
    d ∈ fieldDeps bp ↔
      ∃ src ∈ bp.sources, ∃ tv, src.filter = ChoiceFilter.FieldValue d tv := by
  unfold fieldDeps
  rw [List.mem_filterMap]
  constructor
  · rintro ⟨src, hsrc, hf⟩
    cases hfil : src.filter with
    | FieldValue tf tv =>
      rw [hfil] at hf
      simp only [Option.some.injEq] at hf
      subst hf
      exact ⟨src, hsrc, tv, hfil⟩
    | None => rw [hfil] at hf; simp at hf
  · rintro ⟨src, hsrc, tv, hfil⟩
    exact ⟨src, hsrc, by rw [hfil]⟩

theorem mem_buildGraph_roots (bps : BpMap) (f : String) :
    f ∈ (buildGraph bps).1 ↔ ∃ bp, (f, bp) ∈ bps ∧ fieldDeps bp = [] := by
  induction bps with
  | nil => simp [buildGraph]
  | cons p rest ih =>
    obtain ⟨name, bp⟩ := p
    by_cases h : (fieldDeps bp).length = 0
    · have hnil : fieldDeps bp = [] := List.length_eq_zero.mp h
      simp only [buildGraph, if_pos h, List.mem_cons, ih]
      constructor
      · rintro (rfl | ⟨bp2, hmem, hd⟩)
        · exact ⟨bp, Or.inl rfl, hnil⟩
        · exact ⟨bp2, Or.inr hmem, hd⟩
      · rintro ⟨bp2, heq | hmem2, hd⟩
        · injection heq with h1 h2
          exact Or.inl h1
        · exact Or.inr ⟨bp2, hmem2, hd⟩
    · simp only [buildGraph, if_neg h, List.mem_cons, ih]
      constructor
      · rintro ⟨bp2, hmem, hd⟩
        exact ⟨bp2, Or.inr hmem, hd⟩
      · rintro ⟨bp2, heq | hmem2, hd⟩
        · injection heq with h1 h2
          subst h1; subst h2
          exact absurd (congrArg List.length hd) (by simpa using h)
        · exact ⟨bp2, hmem2, hd⟩

theorem mem_buildGraph_deps (bps : BpMap) (a d : String) :
    (a, d) ∈ (buildGraph bps).2 ↔ ∃ bp, (a, bp) ∈ bps ∧ d ∈ fieldDeps bp := by
  induction bps with
  | nil => simp [buildGraph]
  | cons p rest ih =>
    obtain ⟨name, bp⟩ := p
    by_cases h : (fieldDeps bp).length = 0
    · have hnil : fieldDeps bp = [] := List.length_eq_zero.mp h
      simp only [buildGraph, if_pos h, List.mem_cons, ih]
      constructor
      · rintro ⟨bp2, hmem, hd⟩
        exact ⟨bp2, Or.inr hmem, hd⟩
      · rintro ⟨bp2, heq | hmem2, hd⟩
        · injection heq with h1 h2
          subst h1; subst h2
          rw [hnil] at hd
          cases hd
        · exact ⟨bp2, hmem2, hd⟩
    · simp only [buildGraph, if_neg h, List.mem_append, List.mem_map, List.mem_cons, ih]
      constructor
      · rintro (⟨d2, hd2, heq⟩ | ⟨bp2, hmem, hd⟩)
        · injection heq with h1 h2
          subst h1; subst h2
          exact ⟨bp, Or.inl rfl, hd2⟩
        · exact ⟨bp2, Or.inr hmem, hd⟩
      · rintro ⟨bp2, heq | hmem2, hd⟩
        · injection heq with h1 h2
          subst h1; subst h2
          exact Or.inl ⟨d, hd, rfl⟩
        · exact Or.inr ⟨bp2, hmem2, hd⟩

theorem from_blueprints_ok_eq (bps : BpMap) (g : DependencyGraph)
    (h : from_blueprints bps = Except.ok g) :
    g.roots = (buildGraph bps).1 ∧ g.dependencies = (buildGraph bps).2 := by
  unfold from_blueprints at h
  by_cases hl : (buildGraph bps).1.length > 0
  · rw [if_pos hl] at h
    injection h with h
    subst h
    exact ⟨rfl, rfl⟩
  · rw [if_neg hl] at h
    cases h

theorem from_blueprints_error_iff (bps : BpMap) :
    (∃ e, from_blueprints bps = Except.error e) ↔
      ∀ p ∈ bps, fieldDeps p.2 ≠ [] := by
  unfold from_blueprints
  by_cases hl : (buildGraph bps).1.length > 0
  · rw [if_pos hl]
    constructor
    · rintro ⟨e, he⟩
      cases he
    · intro h
      exfalso
      have hne : (buildGraph bps).1 ≠ [] := by
        intro hnil
        rw [hnil] at hl
        simp at hl
      obtain ⟨f, hf⟩ := List.exists_mem_of_ne_nil _ hne
      obtain ⟨bp, hmem, hd⟩ := (mem_buildGraph_roots bps f).mp hf
      exact absurd hd (h (f, bp) hmem)
  · rw [if_neg hl]
    simp only [gt_iff_lt, not_lt, Nat.le_zero, List.length_eq_zero] at hl
    constructor
    · intro _ p hmem hd
      have : p.1 ∈ (buildGraph bps).1 :=
        (mem_buildGraph_roots bps p.1).mpr ⟨p.2, by simpa using hmem, hd⟩
      rw [hl] at this
      cases this
    · intro _
      exact ⟨_, rfl⟩

/-! Helper lemmas about the graph queries. -/

theorem mem_getLeft (g : DependencyGraph) (f d : String) :
    d ∈ getLeft g f ↔ (f, d) ∈ g.dependencies := by
  unfold getLeft
  simp only [List.mem_map, List.mem_filter, decide_eq_true_eq]
  constructor
  · rintro ⟨⟨a, b⟩, ⟨hmem, ha⟩, hb⟩
    cases ha; cases hb
    exact hmem
  · intro hmem
    exact ⟨(f, d), ⟨hmem, rfl⟩, rfl⟩

theorem mem_getLeftKeys (g : DependencyGraph) (f : String) :
    f ∈ getLeftKeys g ↔ ∃ d, (f, d) ∈ g.dependencies := by
  unfold getLeftKeys
  simp only [List.mem_dedup, List.mem_map]
  constructor
  · rintro ⟨⟨a, b⟩, hmem, ha⟩
    cases ha
    exact ⟨b, hmem⟩
  · rintro ⟨d, hmem⟩
    exact ⟨(f, d), hmem, rfl⟩

theorem mem_get_determined_fields (g : DependencyGraph) (npc : StringMap)
    (f : String) :
    f ∈ get_determined_fields g npc ↔
      (∃ d, (f, d) ∈ g.dependencies) ∧
        ∀ d, (f, d) ∈ g.dependencies → containsKey npc d = true := by
  unfold get_determined_fields
  rw [List.mem_filter, mem_getLeftKeys, List.all_eq_true]
  constructor
  · rintro ⟨hkeys, hall⟩
    refine ⟨hkeys, fun d hd => hall d ((mem_getLeft g f d).mpr hd)⟩
  · rintro ⟨hkeys, hall⟩
    exact ⟨hkeys, fun d hd => hall d ((mem_getLeft g f d).mp hd)⟩

theorem mem_get_available_unset_fields (g : DependencyGraph) (npc : StringMap)
    (f : String) :
    f ∈ get_available_unset_fields g npc ↔
      (f ∈ g.roots ∨ f ∈ get_determined_fields g npc) ∧
        containsKey npc f = false := by
  unfold get_available_unset_fields
  rw [List.mem_filter, List.mem_append, Bool.not_eq_true']

theorem get_determined_fields_key_ext (g : DependencyGraph)
    (npc npc2 : StringMap)
    (h : ∀ k, containsKey npc k = containsKey npc2 k) :
    get_determined_fields g npc = get_determined_fields g npc2 := by
  unfold get_determined_fields
  apply List.filter_congr
  intro f _
  apply congrArg
  have : (fun d => containsKey npc d) = fun d => containsKey npc2 d :=
    funext fun d => h d
  rw [this]

/-! Helper lemmas about the option computation of current_field_infos. -/

theorem evalSource_shape (npc : StringMap) (src : ChoiceSource)
    (contrib : Option (List String))
    (h : evalSource npc src = some contrib) :
    contrib = none ∨ contrib = some src.options := by
  obtain ⟨opts0, fil⟩ := src
  cases fil with
  | FieldValue tf tv =>
    simp only [evalSource] at h
    cases hl : mapLookup tf npc with
    | none => rw [hl] at h; cases h
    | some vals =>
      rw [hl] at h
      simp only [] at h
      by_cases hc : vals.contains tv
      · rw [if_pos hc] at h
        injection h with h
        exact Or.inr h.symm
      · rw [if_neg hc] at h
        injection h with h
        exact Or.inl h.symm
  | None =>
    simp only [evalSource] at h
    injection h with h
    exact Or.inr h.symm

theorem evalSource_eq_some_some_iff (npc : StringMap) (src : ChoiceSource)
    (l : List String) :
    evalSource npc src = some (some l) ↔
      l = src.options ∧
        (src.filter = ChoiceFilter.None ∨
          ∃ tf tv vals, src.filter = ChoiceFilter.FieldValue tf tv ∧
            mapLookup tf npc = some vals ∧ tv ∈ vals) := by
  obtain ⟨opts0, fil⟩ := src
  cases fil with
  | FieldValue tf tv =>
    simp only [evalSource]
    cases hl : mapLookup tf npc with
    | none =>
      simp only [reduceCtorEq, false_iff, not_and]
      rintro rfl (hcond | ⟨tf2, tv2, vals2, heq, hl2, hmem2⟩)
      · cases hcond
      · injection heq with h1 h2
        subst h1; subst h2
        rw [hl] at hl2
        cases hl2
    | some vals =>
      simp only []
      by_cases hc : vals.contains tv
      · have hmem : tv ∈ vals := List.elem_iff.mp hc
        rw [if_pos hc]
        constructor
        · intro h
          injection h with h
          injection h with h
          exact ⟨h.symm, Or.inr ⟨tf, tv, vals, rfl, hl, hmem⟩⟩
        · rintro ⟨rfl, _⟩
          rfl
      · have hmem : tv ∉ vals := fun hm => hc (List.elem_iff.mpr hm)
        rw [if_neg hc]
        constructor
        · intro h
          injection h with h
          cases h
        · rintro ⟨rfl, hcond | ⟨tf2, tv2, vals2, heq, hl2, hmem2⟩⟩
          · cases hcond
          · injection heq with h1 h2
            subst h1; subst h2
            rw [hl] at hl2
            injection hl2 with hl2
            subst hl2
            exact absurd hmem2 hmem
  | None =>
    simp only [evalSource]
    constructor
    · intro h
      injection h with h
      injection h with h
      exact ⟨h.symm, Or.inl trivial⟩
    · rintro ⟨rfl, _⟩
      rfl

theorem computeOpts_mem (npc : StringMap) (srcs : List ChoiceSource)
    (opts : List String) (h : computeOpts npc srcs = some opts) (v : String) :
    v ∈ opts ↔
      ∃ src ∈ srcs, v ∈ src.options ∧
        evalSource npc src = some (some src.options) := by
  induction srcs generalizing opts with
  | nil =>
    unfold computeOpts at h
    injection h with h
    subst h
    simp
  | cons src rest ih =>
    unfold computeOpts at h
    cases he : evalSource npc src with
    | none => rw [he] at h; cases h
    | some contrib =>
      rw [he] at h
      cases hr : computeOpts npc rest with
      | none => rw [hr] at h; cases h
      | some optsRest =>
        rw [hr] at h
        injection h with h
        subst h
        rw [List.mem_append]
        rcases evalSource_shape npc src contrib he with rfl | rfl
        · simp only [Option.getD_none, List.not_mem_nil, false_or]
          rw [ih optsRest hr]
          constructor
          · rintro ⟨src2, hmem, hv, hact⟩
            exact ⟨src2, List.mem_cons_of_mem _ hmem, hv, hact⟩
          · rintro ⟨src2, hmem, hv, hact⟩
            rcases List.mem_cons.mp hmem with rfl | hmem2
            · rw [he] at hact; cases hact
            · exact ⟨src2, hmem2, hv, hact⟩
        · simp only [Option.getD_some]
          rw [ih optsRest hr]
          constructor
          · rintro (hv | ⟨src2, hmem, hv, hact⟩)
            · exact ⟨src, List.mem_cons_self _ _, hv, he⟩
            · exact ⟨src2, List.mem_cons_of_mem _ hmem, hv, hact⟩
          · rintro ⟨src2, hmem, hv, hact⟩
            rcases List.mem_cons.mp hmem with rfl | hmem2
            · exact Or.inl hv
            · exact Or.inr ⟨src2, hmem2, hv, hact⟩

/-! Inversion lemmas for the builder operations. -/

theorem current_field_infos_complete_iff (b : NpcBuilder) :
    current_field_infos b = some none ↔
      get_available_unset_fields b.blueprint.dependency_graph b.constructed_npc
        = [] := by
  simp only [current_field_infos]
  cases hav : get_available_unset_fields b.blueprint.dependency_graph
      b.constructed_npc with
  | nil => simp
  | cons f rest =>
    simp only [reduceCtorEq, iff_false]
    cases hbp : mapLookup f b.blueprint.blueprints with
    | none => simp
    | some bp =>
      simp only []
      cases hco : computeOpts b.constructed_npc bp.sources with
      | none => simp
      | some opts => simp

theorem current_field_infos_some_info (b : NpcBuilder) (f : String)
    (opts : List String) (n : Nat)
    (h : current_field_infos b = some (some (f, opts, n))) :
    ∃ rest bp,
      get_available_unset_fields b.blueprint.dependency_graph b.constructed_npc
          = f :: rest ∧
        mapLookup f b.blueprint.blueprints = some bp ∧
        computeOpts b.constructed_npc bp.sources = some opts ∧
        n = bp.n_selections := by
  simp only [current_field_infos] at h
  cases hav : get_available_unset_fields b.blueprint.dependency_graph
      b.constructed_npc with
  | nil => rw [hav] at h; simp at h
  | cons f2 rest =>
    rw [hav] at h
    simp only [] at h
    cases hbp : mapLookup f2 b.blueprint.blueprints with
    | none => rw [hbp] at h; simp at h
    | some bp =>
      rw [hbp] at h
      simp only [] at h
      cases hco : computeOpts b.constructed_npc bp.sources with
      | none => rw [hco] at h; simp at h
      | some opts2 =>
        rw [hco] at h
        simp only [Option.some.injEq, Prod.mk.injEq] at h
        obtain ⟨hf, hopts, hn⟩ := h
        subst hf
        subst hopts
        subst hn
        exact ⟨rest, bp, rfl, hbp, hco, rfl⟩

theorem set_current_field_val_of_complete (b : NpcBuilder)
    (values : List String) (h : current_field_infos b = some none) :
    set_current_field_val b values =
      some (Except.error SetFieldError.NPCCompleteError, b) := by
  simp only [set_current_field_val, h]

theorem set_current_field_val_wrong_n (b : NpcBuilder) (values : List String)
    (f : String) (opts : List String) (n : Nat)
    (h : current_field_infos b = some (some (f, opts, n)))
    (hlen : values.length ≠ n) :
    set_current_field_val b values =
      some (Except.error (SetFieldError.WrongN values.length n), b) := by
  simp only [set_current_field_val, h, if_pos hlen]

theorem set_current_field_val_invalid (b : NpcBuilder) (values : List String)
    (f : String) (opts : List String) (n : Nat) (bad : String)
    (restBad : List String)
    (h : current_field_infos b = some (some (f, opts, n)))
    (hlen : values.length = n)
    (hbad : values.filter (fun v => !opts.contains v) = bad :: restBad) :
    set_current_field_val b values =
      some (Except.error (SetFieldError.InvalidValue bad opts), b) := by
  have hall : values.all (fun v => opts.contains v) = false := by
    have hmem : bad ∈ values.filter (fun v => !opts.contains v) := by
      rw [hbad]; exact List.mem_cons_self _ _
    rw [List.mem_filter] at hmem
    obtain ⟨hmemv, hnc⟩ := hmem
    rw [Bool.not_eq_true'] at hnc
    cases hallv : values.all (fun v => opts.contains v) with
    | false => rfl
    | true =>
      rw [List.all_eq_true] at hallv
      exact absurd (hallv bad hmemv) (by rw [hnc]; simp)
  have hne : ¬(values.length ≠ n) := fun hx => hx hlen
  simp only [set_current_field_val, h, if_neg hne, hall, Bool.false_eq_true,
    if_false, hbad]

theorem set_current_field_val_success (b : NpcBuilder) (values : List String)
    (f : String) (opts : List String) (n : Nat)
    (h : current_field_infos b = some (some (f, opts, n)))
    (hlen : values.length = n)
    (hall : values.all (fun v => opts.contains v) = true) :
    set_current_field_val b values =
      some
        (Except.ok
          (if npc_completed
              { b with constructed_npc := mapInsert b.constructed_npc f values }
            then some (mapInsert b.constructed_npc f values)
            else none),
          { b with constructed_npc := mapInsert b.constructed_npc f values }) := by
  have hne : ¬(values.length ≠ n) := fun hx => hx hlen
  simp only [set_current_field_val, h, if_neg hne, hall, if_true]
  cases hc : npc_completed
      { b with constructed_npc := mapInsert b.constructed_npc f values } with
  | false => simp [hc]
  | true => simp [hc]

theorem set_current_field_val_error_state (b : NpcBuilder)
    (values : List String) (e : SetFieldError) (b2 : NpcBuilder)
    (h : set_current_field_val b values = some (Except.error e, b2)) :
    b2 = b := by
  simp only [set_current_field_val] at h
  cases hcfi : current_field_infos b with
  | none => rw [hcfi] at h; cases h
  | some inner =>
    rw [hcfi] at h
    cases inner with
    | none =>
      simp only [Option.some.injEq, Prod.mk.injEq] at h
      exact h.2.symm
    | some info =>
      obtain ⟨f, opts, n⟩ := info
      simp only [] at h
      by_cases hlen : values.length ≠ n
      · rw [if_pos hlen] at h
        simp only [Option.some.injEq, Prod.mk.injEq] at h
        exact h.2.symm
      · rw [if_neg hlen] at h
        cases hall : values.all (fun v => opts.contains v) with
        | true =>
          rw [hall] at h
          simp only [if_true] at h
          cases hc : npc_completed
              { b with constructed_npc := mapInsert b.constructed_npc f values } with
          | true => rw [hc] at h; simp at h
          | false => rw [hc] at h; simp at h
        | false =>
          rw [hall] at h
          simp only [Bool.false_eq_true, if_false] at h
          cases hfil : values.filter (fun v => !opts.contains v) with
          | nil => rw [hfil] at h; cases h
          | cons bad restBad =>
            rw [hfil] at h
            simp only [Option.some.injEq, Prod.mk.injEq] at h
            exact h.2.symm

theorem set_current_field_val_ok_inv (b : NpcBuilder) (values : List String)
    (res : Option StringMap) (b2 : NpcBuilder)
    (h : set_current_field_val b values = some (Except.ok res, b2)) :
    ∃ f opts n,
      current_field_infos b = some (some (f, opts, n)) ∧
        values.length = n ∧
        values.all (fun v => opts.contains v) = true ∧
        b2 = { b with constructed_npc := mapInsert b.constructed_npc f values } ∧
        ((npc_completed b2 = true ∧
            res = some (mapInsert b.constructed_npc f values)) ∨
          (npc_completed b2 = false ∧ res = none)) := by
  simp only [set_current_field_val] at h
  cases hcfi : current_field_infos b with
  | none => rw [hcfi] at h; cases h
  | some inner =>
    rw [hcfi] at h
    cases inner with
    | none => simp at h
    | some info =>
      obtain ⟨f, opts, n⟩ := info
      simp only [] at h
      by_cases hlen : values.length ≠ n
      · rw [if_pos hlen] at h
        simp at h
      · rw [if_neg hlen] at h
        rw [not_not] at hlen
        cases hall : values.all (fun v => opts.contains v) with
        | false =>
          rw [hall] at h
          simp only [Bool.false_eq_true, if_false] at h
          cases hfil : values.filter (fun v => !opts.contains v) with
          | nil => rw [hfil] at h; cases h
          | cons bad restBad => rw [hfil] at h; simp at h
        | true =>
          rw [hall] at h
          simp only [if_true] at h
          cases hc : npc_completed
              { b with constructed_npc := mapInsert b.constructed_npc f values } with
          | true =>
            rw [hc] at h
            simp only [if_true, Option.some.injEq, Prod.mk.injEq,
              Except.ok.injEq] at h
            obtain ⟨hres, hb2⟩ := h
            subst hb2
            exact ⟨f, opts, n, rfl, hlen, hall, rfl, Or.inl ⟨hc, hres.symm⟩⟩
          | false =>
            rw [hc] at h
            simp only [Bool.false_eq_true, if_false, Option.some.injEq,
              Prod.mk.injEq, Except.ok.injEq] at h
            obtain ⟨hres, hb2⟩ := h
            subst hb2
            exact ⟨f, opts, n, rfl, hlen, hall, rfl, Or.inr ⟨hc, hres.symm⟩⟩

/-! Further map lemmas and the reachability invariant. -/

theorem mapLookup_mapInsert_self (m : StringMap) (k : String)
    (v : List String) : mapLookup k (mapInsert m k v) = some v := by
  induction m with
  | nil => simp [mapInsert, mapLookup]
  | cons p rest ih =>
    obtain ⟨k2, v2⟩ := p
    by_cases h : k2 = k
    · subst h
      simp [mapInsert, mapLookup]
    · simp [mapInsert, mapLookup, h, ih]

theorem containsKey_mapInsert (m : StringMap) (k k2 : String)
    (v : List String) :
    containsKey (mapInsert m k v) k2 = true ↔
      k2 = k ∨ containsKey m k2 = true := by
  induction m with
  | nil =>
    simp only [mapInsert, containsKey, mapLookup]
    by_cases h : k = k2
    · subst h; simp
    · rw [if_neg h]
      simp only [Option.isSome_none, Bool.false_eq_true, false_iff, or_false]
      exact fun hx => h hx.symm
  | cons p rest ih =>
    obtain ⟨k3, v3⟩ := p
    by_cases h3 : k3 = k
    · subst h3
      simp only [mapInsert, if_pos rfl, containsKey, mapLookup]
      by_cases h2 : k3 = k2
      · subst h2; simp
      · simp only [if_neg h2]
        rw [show (k2 = k3 ∨ (mapLookup k2 rest).isSome = true ↔
          (mapLookup k2 rest).isSome = true) from
          or_iff_right fun hx => h2 hx.symm]
    · simp only [mapInsert, if_neg h3, containsKey, mapLookup]
      by_cases h2 : k3 = k2
      · subst h2; simp
      · simp only [if_neg h2]
        exact ih

theorem mapLookup_mem {β : Type} (m : List (String × β)) (k : String) (v : β)
    (h : mapLookup k m = some v) : (k, v) ∈ m := by
  induction m with
  | nil => cases h
  | cons p rest ih =>
    obtain ⟨k2, v2⟩ := p
    simp only [mapLookup] at h
    by_cases hk : k2 = k
    · rw [if_pos hk] at h
      injection h with h
      subst h
      subst hk
      exact List.mem_cons_self _ _
    · rw [if_neg hk] at h
      exact List.mem_cons_of_mem _ (ih h)

theorem reachable_state_keys (bp : NpcBlueprint) (b : NpcBuilder)
    (hr : Reachable bp b) :
    b.blueprint = bp ∧
      ∀ k, containsKey b.constructed_npc k = true →
        ∃ fb, (k, fb) ∈ bp.blueprints := by
  induction hr with
  | init =>
    refine ⟨rfl, fun k hk => ?_⟩
    simp [containsKey, mapLookup] at hk
  | step b b2 values res hr2 hs ih =>
    obtain ⟨hbp, hsub⟩ := ih
    obtain ⟨f, opts, n, hcfi, hlen, hall, hb2, _⟩ :=
      set_current_field_val_ok_inv b values res b2 hs
    obtain ⟨rest, bpF, hav, hbpF, _, _⟩ :=
      current_field_infos_some_info b f opts n hcfi
    have hbp2 : b2.blueprint = bp := by rw [hb2]; exact hbp
    refine ⟨hbp2, fun k hk => ?_⟩
    rw [hb2] at hk
    simp only [] at hk
    rw [containsKey_mapInsert] at hk
    rcases hk with rfl | hk2
    · have hmem := mapLookup_mem b.blueprint.blueprints k bpF hbpF
      rw [hbp] at hmem
      exact ⟨bpF, hmem⟩
    · exact hsub k hk2

theorem mapLookup_append_present (m : StringMap) (k k2 : String)
    (v : List String) (h : containsKey m k2 = true) :
    mapLookup k2 (m ++ [(k, v)]) = mapLookup k2 m := by
  rw [mapLookup_append_fresh]
  unfold containsKey at h
  cases hl : mapLookup k2 m with
  | none => rw [hl] at h; cases h
  | some v2 => rfl

theorem fieldDeps_ne_nil_iff (bp : FieldBlueprint) :
    fieldDeps bp ≠ [] ↔ ∃ src ∈ bp.sources, src.filter ≠ ChoiceFilter.None := by
  rw [Ne, fieldDeps_eq_nil_iff]
  push_neg
  exact Iff.rfl

/-! Claim theorems. -/

/-- C5: from_blueprints fails (with the no-root-fields error) exactly when
every field of the blueprint map has at least one source with a non-None
filter; when it succeeds, roots holds exactly the field names all of whose
sources have filter None, and a dependency edge (a, d) is recorded exactly
when some source of a filters on d. -/
theorem C5_from_blueprints_roots_and_edges (bps : BpMap) :
    ((∃ e, from_blueprints bps = Except.error e) ↔
        ∀ p ∈ bps, ∃ src ∈ p.2.sources, src.filter ≠ ChoiceFilter.None) ∧
      ∀ g, from_blueprints bps = Except.ok g →
        (∀ f, f ∈ g.roots ↔
            ∃ bp, (f, bp) ∈ bps ∧
              ∀ src ∈ bp.sources, src.filter = ChoiceFilter.None) ∧
          ∀ a d, (a, d) ∈ g.dependencies ↔
            ∃ bp, (a, bp) ∈ bps ∧
              ∃ src ∈ bp.sources, ∃ tv,
                src.filter = ChoiceFilter.FieldValue d tv := by
  constructor
  · rw [from_blueprints_error_iff]
    exact forall_congr' fun p =>
      imp_congr_right fun _ => fieldDeps_ne_nil_iff p.2
  · intro g hg
    obtain ⟨hr, hd⟩ := from_blueprints_ok_eq bps g hg
    constructor
    · intro f
      rw [hr, mem_buildGraph_roots]
      exact exists_congr fun bp =>
        and_congr_right fun _ => fieldDeps_eq_nil_iff bp
    · intro a d
      rw [hd, mem_buildGraph_deps]
      exact exists_congr fun bp =>
        and_congr_right fun _ => mem_fieldDeps_iff bp d

/-- C5 witness: the characterisation applied to the concrete blueprint map
cycBps, whose graph construction succeeds with root R and the edges between
A and B. -/
theorem C5_witness :
    from_blueprints cycBps = Except.ok cycG ∧
      ("R" ∈ cycG.roots ↔
        ∃ bp, ("R", bp) ∈ cycBps ∧
          ∀ src ∈ bp.sources, src.filter = ChoiceFilter.None) ∧
      (("A", "B") ∈ cycG.dependencies ↔
        ∃ bp, ("A", bp) ∈ cycBps ∧
          ∃ src ∈ bp.sources, ∃ tv,
            src.filter = ChoiceFilter.FieldValue "B" tv) :=
  ⟨rfl,
    ((C5_from_blueprints_roots_and_edges cycBps).2 cycG rfl).1 "R",
    ((C5_from_blueprints_roots_and_edges cycBps).2 cycG rfl).2 "A" "B"⟩

/-- C7: membership in available_unset_fields is exactly membership in roots
or in determined_fields minus the fields already present in the state;
membership in determined_fields is exactly having at least one recorded
dependency with every dependency target present as a key; and
determined_fields depends only on key presence, never on the committed
values. -/
theorem C7_availability_characterisation (g : DependencyGraph)
    (npc npc2 : StringMap) :
    (∀ f, f ∈ get_available_unset_fields g npc ↔
        (f ∈ g.roots ∨ f ∈ get_determined_fields g npc) ∧
          containsKey npc f = false) ∧
      (∀ f, f ∈ get_determined_fields g npc ↔
        (∃ d, (f, d) ∈ g.dependencies) ∧
          ∀ d, (f, d) ∈ g.dependencies → containsKey npc d = true) ∧
      ((∀ k, containsKey npc k = containsKey npc2 k) →
        get_determined_fields g npc = get_determined_fields g npc2) :=
  ⟨fun f => mem_get_available_unset_fields g npc f,
    fun f => mem_get_determined_fields g npc f,
    fun h => get_determined_fields_key_ext g npc npc2 h⟩

/-- C7 witness: the characterisation applied to the concrete graph exG,
with two states that commit different values for Race. -/
theorem C7_witness :
    ("Weapon" ∈ get_available_unset_fields exG [("Race", ["Orc"])] ↔
        ("Weapon" ∈ exG.roots ∨
            "Weapon" ∈ get_determined_fields exG [("Race", ["Orc"])]) ∧
          containsKey [("Race", ["Orc"])] "Weapon" = false) ∧
      (∀ k, containsKey [("Race", ["Orc"])] k =
          containsKey [("Race", ["Elf"])] k) ∧
      get_determined_fields exG [("Race", ["Orc"])] =
        get_determined_fields exG [("Race", ["Elf"])] :=
  ⟨(C7_availability_characterisation exG [("Race", ["Orc"])]
      [("Race", ["Elf"])]).1 "Weapon",
    fun k => by by_cases h : "Race" = k <;> simp [containsKey, mapLookup, h],
    (C7_availability_characterisation exG [("Race", ["Orc"])]
      [("Race", ["Elf"])]).2.2
      fun k => by by_cases h : "Race" = k <;> simp [containsKey, mapLookup, h]⟩

/-- C2: contrary to the claim, evaluating the per-source step of the active
option computation on a source whose filter targets a field absent from the
state reaches the panicking index branch (modelled as none) instead of
treating the source as inactive, and the whole option computation aborts
with it. -/
theorem C2_filter_eval_panics_on_absent_target :
    evalSource [] ⟨["z"], ChoiceFilter.FieldValue "B" "b1"⟩ = none ∧
      computeOpts [] [⟨["z"], ChoiceFilter.FieldValue "B" "b1"⟩] = none :=
  ⟨rfl, rfl⟩

/-- C10: for a graph built by from_blueprints from a blueprint map, every
field returned by get_available_unset_fields is a key of that blueprint map
and is absent from the state, so the blueprint lookup performed by
current_field_infos for the selected field cannot fail. -/
theorem C10_available_fields_have_blueprints (bps : BpMap)
    (g : DependencyGraph) (npc : StringMap)
    (hg : from_blueprints bps = Except.ok g) :
    ∀ f ∈ get_available_unset_fields g npc,
      (mapLookup f bps).isSome = true ∧ containsKey npc f = false := by
  intro f hf
  rw [mem_get_available_unset_fields] at hf
  obtain ⟨hroot | hdet, habsent⟩ := hf
  · obtain ⟨hr, _⟩ := from_blueprints_ok_eq bps g hg
    rw [hr] at hroot
    obtain ⟨bp, hmem, _⟩ := (mem_buildGraph_roots bps f).mp hroot
    exact ⟨(mapLookup_isSome_iff bps f).mpr ⟨bp, hmem⟩, habsent⟩
  · obtain ⟨_, hd⟩ := from_blueprints_ok_eq bps g hg
    rw [mem_get_determined_fields] at hdet
    obtain ⟨⟨d, hedge⟩, _⟩ := hdet
    rw [hd] at hedge
    obtain ⟨bp, hmem, _⟩ := (mem_buildGraph_deps bps f d).mp hedge
    exact ⟨(mapLookup_isSome_iff bps f).mpr ⟨bp, hmem⟩, habsent⟩

/-- C10 witness: applied to the concrete blueprint map exBps and the state
where only Race is resolved, for the available field Weapon. -/
theorem C10_witness :
    from_blueprints exBps = Except.ok exG ∧
      "Weapon" ∈ get_available_unset_fields exG [("Race", ["Orc"])] ∧
      ((mapLookup "Weapon" exBps).isSome = true ∧
        containsKey [("Race", ["Orc"])] "Weapon" = false) :=
  ⟨rfl, by decide,
    C10_available_fields_have_blueprints exBps exG [("Race", ["Orc"])] rfl
      "Weapon" (by decide)⟩

/-- C6: whenever current_field_infos returns a field with its option list
and count, and every filter target of the sources of that field is present
in the state, the option list is exactly the union over the ChoiceSource
entries of the options of every source whose filter is None or whose
filter target has a committed value list containing the target value, and
the count is the n_selections of the field. -/
theorem C6_active_option_set (b : NpcBuilder) (f : String)
    (opts : List String) (n : Nat) (bp : FieldBlueprint)
    (h : current_field_infos b = some (some (f, opts, n)))
    (hbp : mapLookup f b.blueprint.blueprints = some bp)
    (hpres : ∀ src ∈ bp.sources, ∀ tf tv,
      src.filter = ChoiceFilter.FieldValue tf tv →
        containsKey b.constructed_npc tf = true) :
    n = bp.n_selections ∧
      ∀ v, v ∈ opts ↔
        ∃ src ∈ bp.sources, v ∈ src.options ∧
          (src.filter = ChoiceFilter.None ∨
            ∃ tf tv vals, src.filter = ChoiceFilter.FieldValue tf tv ∧
              mapLookup tf b.constructed_npc = some vals ∧ tv ∈ vals) := by
  obtain ⟨rest, bp2, hav, hbp2, hco, hn⟩ :=
    current_field_infos_some_info b f opts n h
  rw [hbp] at hbp2
  injection hbp2 with hbp2
  subst hbp2
  refine ⟨hn, fun v => ?_⟩
  rw [computeOpts_mem b.constructed_npc bp.sources opts hco v]
  apply exists_congr
  intro src
  apply and_congr_right
  intro hsrc
  apply and_congr_right
  intro hv
  rw [evalSource_eq_some_some_iff]
  simp

/-- C6 witness: applied to the builder where Race is resolved to Orc, whose
current field is Weapon with active options Axe only. -/
theorem C6_witness :
    current_field_infos exBuilder = some (some ("Weapon", ["Axe"], 1)) ∧
      mapLookup "Weapon" exBuilder.blueprint.blueprints = some weaponBp ∧
      1 = weaponBp.n_selections ∧
      ("Axe" ∈ (["Axe"] : List String) ↔
        ∃ src ∈ weaponBp.sources, "Axe" ∈ src.options ∧
          (src.filter = ChoiceFilter.None ∨
            ∃ tf tv vals, src.filter = ChoiceFilter.FieldValue tf tv ∧
              mapLookup tf exBuilder.constructed_npc = some vals ∧
              tv ∈ vals)) :=
  ⟨rfl, rfl,
    (C6_active_option_set exBuilder "Weapon" ["Axe"] 1 weaponBp rfl rfl
      (by
        intro src hsrc tf tv hf
        rcases List.mem_cons.mp hsrc with rfl | hsrc2
        · injection hf with h1 h2
          subst h1
          decide
        · rcases List.mem_cons.mp hsrc2 with rfl | hsrc3
          · injection hf with h1 h2
            subst h1
            decide
          · cases hsrc3)).1,
    (C6_active_option_set exBuilder "Weapon" ["Axe"] 1 weaponBp rfl rfl
      (by
        intro src hsrc tf tv hf
        rcases List.mem_cons.mp hsrc with rfl | hsrc2
        · injection hf with h1 h2
          subst h1
          decide
        · rcases List.mem_cons.mp hsrc2 with rfl | hsrc3
          · injection hf with h1 h2
            subst h1
            decide
          · cases hsrc3)).2 "Axe"⟩

/-- C3: set_current_field_val evaluates its preconditions in the stated
order: completion gives NPCCompleteError; otherwise a length mismatch gives
WrongN of the submitted and required counts; otherwise, if some value is
outside the active options, InvalidValue carries the first offending value
in submission order together with the full active option set; otherwise it
commits the values for the current field.  Every failure returns the
builder unchanged. -/
theorem C3_submit_validation_order (b : NpcBuilder) (values : List String)
    (r : Option (String × List String × Nat))
    (h : current_field_infos b = some r) :
    (r = none →
        set_current_field_val b values =
          some (Except.error SetFieldError.NPCCompleteError, b)) ∧
      (∀ f opts n, r = some (f, opts, n) → values.length ≠ n →
        set_current_field_val b values =
          some (Except.error (SetFieldError.WrongN values.length n), b)) ∧
      (∀ f opts n bad restBad, r = some (f, opts, n) → values.length = n →
        values.filter (fun v => !opts.contains v) = bad :: restBad →
        set_current_field_val b values =
          some (Except.error (SetFieldError.InvalidValue bad opts), b)) ∧
      (∀ f opts n, r = some (f, opts, n) → values.length = n →
        values.all (fun v => opts.contains v) = true →
        ∃ res, set_current_field_val b values =
          some (Except.ok res,
            { b with constructed_npc := mapInsert b.constructed_npc f values })) := by
  refine ⟨?_, ?_, ?_, ?_⟩
  · rintro rfl
    exact set_current_field_val_of_complete b values h
  · rintro f opts n rfl hlen
    exact set_current_field_val_wrong_n b values f opts n h hlen
  · rintro f opts n bad restBad rfl hlen hbad
    exact set_current_field_val_invalid b values f opts n bad restBad h hlen
      hbad
  · rintro f opts n rfl hlen hall
    exact ⟨_, set_current_field_val_success b values f opts n h hlen hall⟩

/-- C3 witness: applied to the builder where Race is resolved to Orc; a
two-value submission for the one-value Weapon field fails with WrongN and
leaves the builder unchanged. -/
theorem C3_witness :
    current_field_infos exBuilder = some (some ("Weapon", ["Axe"], 1)) ∧
      set_current_field_val exBuilder ["Axe", "Bow"] =
        some (Except.error (SetFieldError.WrongN 2 1), exBuilder) :=
  ⟨rfl,
    (C3_submit_validation_order exBuilder ["Axe", "Bow"]
        (some ("Weapon", ["Axe"], 1)) rfl).2.1 "Weapon" ["Axe"] 1 rfl
      (by decide)⟩

/-- C4 counterexample: the claim that a submission with duplicates cannot
succeed is false: the field F requires two selections from x and y, yet
submitting x twice succeeds and commits [x, x], which has one distinct
value. -/
theorem C4_counterexample :
    set_current_field_val dupBuilder ["x", "x"] =
      some (Except.ok (some [("F", ["x", "x"])]),
        NpcBuilder.mk [("F", ["x", "x"])] ⟨dupBps, dupG⟩) := rfl

/-- C4 amended: every successful submit commits exactly required_count
values counted with multiplicity; the values need not be distinct. -/
theorem C4_success_commits_required_count (b : NpcBuilder)
    (values : List String) (res : Option StringMap) (b2 : NpcBuilder)
    (f : String) (opts : List String) (n : Nat)
    (h : current_field_infos b = some (some (f, opts, n)))
    (hs : set_current_field_val b values = some (Except.ok res, b2)) :
    values.length = n ∧ mapLookup f b2.constructed_npc = some values := by
  obtain ⟨f2, opts2, n2, hcfi, hlen, hall, hb2, _⟩ :=
    set_current_field_val_ok_inv b values res b2 hs
  rw [h] at hcfi
  simp only [Option.some.injEq, Prod.mk.injEq] at hcfi
  obtain ⟨hf, hopts, hn⟩ := hcfi
  subst hf
  subst hn
  refine ⟨hlen, ?_⟩
  rw [hb2]
  exact mapLookup_mapInsert_self b.constructed_npc f values

/-- C4 witness: the amended statement applied to the duplicate submission
that the counterexample exhibits. -/
theorem C4_witness :
    current_field_infos dupBuilder = some (some ("F", ["x", "y"], 2)) ∧
      set_current_field_val dupBuilder ["x", "x"] =
        some (Except.ok (some [("F", ["x", "x"])]),
          NpcBuilder.mk [("F", ["x", "x"])] ⟨dupBps, dupG⟩) ∧
      (["x", "x"].length = 2 ∧
        mapLookup "F"
            (NpcBuilder.mk [("F", ["x", "x"])] ⟨dupBps, dupG⟩).constructed_npc =
          some ["x", "x"]) :=
  ⟨rfl, rfl,
    C4_success_commits_required_count dupBuilder ["x", "x"]
      (some [("F", ["x", "x"])])
      (NpcBuilder.mk [("F", ["x", "x"])] ⟨dupBps, dupG⟩) "F" ["x", "y"] 2 rfl
      rfl⟩

/-- C1 counterexample: the claimed equivalence is false in the direction
from current_field_infos to npc_completed: with the root R resolved and the
mutually filtered fields A and B stalled, no field is available, so
current_field_infos reports completion (the Rust function returns None)
although npc_completed is false. -/
theorem C1_counterexample :
    npc_completed cycBuilder = false ∧
      current_field_infos cycBuilder = some none :=
  ⟨rfl, rfl⟩

/-- C1 amended: for a builder whose dependency graph was produced by
from_blueprints from its own blueprint map, npc_completed implies that
current_field_infos returns the Rust None; the converse implication of the
claimed equivalence does not hold in general. -/
theorem C1_completed_implies_no_current_field (b : NpcBuilder)
    (hg : from_blueprints b.blueprint.blueprints =
      Except.ok b.blueprint.dependency_graph)
    (hc : npc_completed b = true) :
    current_field_infos b = some none := by
  rw [current_field_infos_complete_iff]
  rw [List.eq_nil_iff_forall_not_mem]
  intro f hf
  rw [mem_get_available_unset_fields] at hf
  obtain ⟨hro, habs⟩ := hf
  have hkey : ∃ bp, (f, bp) ∈ b.blueprint.blueprints := by
    obtain ⟨hr, hd⟩ := from_blueprints_ok_eq _ _ hg
    rcases hro with hroot | hdet
    · rw [hr] at hroot
      obtain ⟨bp, hmem, _⟩ := (mem_buildGraph_roots _ f).mp hroot
      exact ⟨bp, hmem⟩
    · rw [mem_get_determined_fields] at hdet
      obtain ⟨⟨d, hedge⟩, _⟩ := hdet
      rw [hd] at hedge
      obtain ⟨bp, hmem, _⟩ := (mem_buildGraph_deps _ f d).mp hedge
      exact ⟨bp, hmem⟩
  obtain ⟨bp, hmem⟩ := hkey
  unfold npc_completed at hc
  rw [List.all_eq_true] at hc
  have hck := hc f (List.mem_map.mpr ⟨(f, bp), hmem, rfl⟩)
  rw [habs] at hck
  exact Bool.false_ne_true hck

/-- C1 witness: the amended implication applied to a completed concrete
builder over the one-field blueprint. -/
theorem C1_witness :
    from_blueprints oneBps = Except.ok oneG ∧
      npc_completed (NpcBuilder.mk [("F1", ["x"])] oneBlueprint) = true ∧
      current_field_infos (NpcBuilder.mk [("F1", ["x"])] oneBlueprint) =
        some none :=
  ⟨rfl, rfl,
    C1_completed_implies_no_current_field
      (NpcBuilder.mk [("F1", ["x"])] oneBlueprint) rfl rfl⟩

/-- C8: one builder operation preserves the state invariants: every failing
set_current_field_val call returns the builder unchanged, and every
successful call commits a field that was not previously a key, appends
exactly that one entry (so the key count grows by exactly one and never
decreases), keeps the keys duplicate-free, and leaves every previously
committed entry unaltered. -/
theorem C8_state_invariants (b : NpcBuilder) (values : List String) :
    (∀ e b2, set_current_field_val b values = some (Except.error e, b2) →
        b2 = b) ∧
      ∀ res b2, set_current_field_val b values = some (Except.ok res, b2) →
        ∃ f, containsKey b.constructed_npc f = false ∧
          b2.constructed_npc = b.constructed_npc ++ [(f, values)] ∧
          b2.constructed_npc.length = b.constructed_npc.length + 1 ∧
          ((b.constructed_npc.map Prod.fst).Nodup →
            (b2.constructed_npc.map Prod.fst).Nodup) ∧
          ∀ k, containsKey b.constructed_npc k = true →
            mapLookup k b2.constructed_npc = mapLookup k b.constructed_npc := by
  refine ⟨fun e b2 h => set_current_field_val_error_state b values e b2 h, ?_⟩
  intro res b2 hs
  obtain ⟨f, opts, n, hcfi, hlen, hall, hb2, _⟩ :=
    set_current_field_val_ok_inv b values res b2 hs
  obtain ⟨rest, bp, hav, _, _, _⟩ :=
    current_field_infos_some_info b f opts n hcfi
  have hfmem : f ∈ get_available_unset_fields b.blueprint.dependency_graph
      b.constructed_npc := by
    rw [hav]
    exact List.mem_cons_self _ _
  rw [mem_get_available_unset_fields] at hfmem
  have hfresh : containsKey b.constructed_npc f = false := hfmem.2
  have hnpc : b2.constructed_npc = b.constructed_npc ++ [(f, values)] := by
    rw [hb2]
    exact mapInsert_fresh b.constructed_npc f values hfresh
  refine ⟨f, hfresh, hnpc, ?_, ?_, ?_⟩
  · rw [hnpc, List.length_append]
    rfl
  · intro hnd
    rw [hnpc, List.map_append]
    refine List.Nodup.append hnd (List.nodup_singleton f) ?_
    intro a ha hb
    rw [show ([(f, values)].map Prod.fst) = [f] from rfl] at hb
    rw [List.mem_singleton] at hb
    subst hb
    rw [← containsKey_iff_mem_keys] at ha
    rw [hfresh] at ha
    exact Bool.false_ne_true ha
  · intro k hk
    rw [hnpc]
    exact mapLookup_append_present b.constructed_npc f k values hk

/-- C8 witness: applied to a fresh builder over the one-field blueprint and
the successful submission of x. -/
theorem C8_witness :
    set_current_field_val oneBuilder ["x"] =
      some (Except.ok (some [("F1", ["x"])]),
        NpcBuilder.mk [("F1", ["x"])] oneBlueprint) ∧
      ∃ f, containsKey oneBuilder.constructed_npc f = false ∧
        (NpcBuilder.mk [("F1", ["x"])] oneBlueprint).constructed_npc =
          oneBuilder.constructed_npc ++ [(f, ["x"])] ∧
        (NpcBuilder.mk [("F1", ["x"])] oneBlueprint).constructed_npc.length =
          oneBuilder.constructed_npc.length + 1 ∧
        ((oneBuilder.constructed_npc.map Prod.fst).Nodup →
          ((NpcBuilder.mk [("F1", ["x"])]
              oneBlueprint).constructed_npc.map Prod.fst).Nodup) ∧
        ∀ k, containsKey oneBuilder.constructed_npc k = true →
          mapLookup k
              (NpcBuilder.mk [("F1", ["x"])] oneBlueprint).constructed_npc =
            mapLookup k oneBuilder.constructed_npc :=
  ⟨rfl,
    (C8_state_invariants oneBuilder ["x"]).2 (some [("F1", ["x"])])
      (NpcBuilder.mk [("F1", ["x"])] oneBlueprint) rfl⟩

/-- C9: from any session reachable from a fresh builder by successful
submits, when set_current_field_val returns the finished record, that
record has a key for every field of the blueprint map and no key outside
it. -/
theorem C9_completion_closure (bp : NpcBlueprint) (b b2 : NpcBuilder)
    (values : List String) (record : StringMap)
    (hr : Reachable bp b)
    (hs : set_current_field_val b values =
      some (Except.ok (some record), b2)) :
    ∀ k, containsKey record k = true ↔ ∃ fb, (k, fb) ∈ bp.blueprints := by
  obtain ⟨hbp, hsub⟩ := reachable_state_keys bp b hr
  obtain ⟨f, opts, n, hcfi, hlen, hall, hb2, hres⟩ :=
    set_current_field_val_ok_inv b values (some record) b2 hs
  obtain ⟨rest, bpF, hav, hbpF, _, _⟩ :=
    current_field_infos_some_info b f opts n hcfi
  rcases hres with ⟨hcomp, hrec⟩ | ⟨_, hrec⟩
  · injection hrec with hrec
    intro k
    constructor
    · intro hk
      rw [hrec] at hk
      rw [containsKey_mapInsert] at hk
      rcases hk with rfl | hk2
      · have hmem := mapLookup_mem b.blueprint.blueprints k bpF hbpF
        rw [hbp] at hmem
        exact ⟨bpF, hmem⟩
      · exact hsub k hk2
    · rintro ⟨fb, hmem⟩
      unfold npc_completed at hcomp
      rw [List.all_eq_true] at hcomp
      have hkeys : k ∈ b2.blueprint.blueprints.map Prod.fst := by
        rw [hb2]
        simp only []
        rw [hbp]
        exact List.mem_map.mpr ⟨(k, fb), hmem, rfl⟩
      have hck := hcomp k hkeys
      rw [hb2] at hck
      simp only [] at hck
      rw [← hrec] at hck
      exact hck
  · cases hrec

/-- C9 witness: applied to the fresh one-field session whose single submit
returns the finished record. -/
theorem C9_witness :
    Reachable oneBlueprint oneBuilder ∧
      set_current_field_val oneBuilder ["x"] =
        some (Except.ok (some [("F1", ["x"])]),
          NpcBuilder.mk [("F1", ["x"])] oneBlueprint) ∧
      (containsKey [("F1", ["x"])] "F1" = true ↔
        ∃ fb, ("F1", fb) ∈ oneBlueprint.blueprints) :=
  ⟨Reachable.init, rfl,
    C9_completion_closure oneBlueprint oneBuilder
      (NpcBuilder.mk [("F1", ["x"])] oneBlueprint) ["x"] [("F1", ["x"])]
      Reachable.init rfl "F1"⟩
